import Mathlib

/-!
# Verification of the hybrid recommendation merge and related services

Shallow embedding of the algorithmic fragments of the repository:

* `RecommendationService.get_hybrid_recommendations` (services/recommendation_service.py,
  lines 108-123): the weighted merge of a graph-ranked identifier list with a
  similarity-ranked (identifier, score) list.
* `VectorService.search_k_similar` (services/vector_service.py, lines 202-223):
  the deduplicate-by-key-keep-max-score reducer.
* `RecommendationService.get_graph_recommendations` (services/recommendation_service.py,
  lines 38-85): the interaction-graph reader.
* `AgentService.route_request` (services/agent_service.py, lines 18-36).

Python `float` scores are modelled exactly as rationals (`ℚ`); Python `dict`s
(which preserve insertion order, updating a present key in place and appending
a new key at the end) are modelled as association lists with exactly those
semantics; Python's stable `sorted(..., key=score, reverse=True)` is modelled
by a stable descending insertion sort.
-/

namespace Thor

/-- A ranked item: (identifier, score), as produced by both source rankers. -/
abbrev Entry := String × ℚ

/-- The identifiers of an association list, in order. -/
def keys (l : List Entry) : List String := l.map Prod.fst

/-- `d.get(k, 0)`: the value stored for `k`, defaulting to `0`. -/
def lookupD (k : String) : List Entry → ℚ
  | [] => 0
  | e :: t => if e.1 = k then e.2 else lookupD k t

/-- `d[k] = d.get(k, 0) + v` on an insertion-ordered dict: a present key keeps
its position and accumulates, a new key is appended at the end. -/
def dictAdd : List Entry → String → ℚ → List Entry
  | [], k, v => [(k, v)]
  | e :: t, k, v => if e.1 = k then (e.1, e.2 + v) :: t else e :: dictAdd t k v

/-- Line 112 of recommendation_service.py: `score = (count - i) / count * graph_weight`.
Note the divisor is the requested `count`, not the length of the graph list. -/
def graphScore (count i : ℕ) (w : ℚ) : ℚ := ((count : ℚ) - (i : ℚ)) / (count : ℚ) * w

/-- Lines 111-113: the loop `for i, video_id in enumerate(graph_videos)` adding
each positional score into `final_scores`. -/
def addGraphScores (count : ℕ) (w : ℚ) (graph : List String) (m : List Entry) : List Entry :=
  graph.enum.foldl (fun acc p => dictAdd acc p.2 (graphScore count p.1 w)) m

/-- Lines 116-119: `embedding_weight = 1.0 - graph_weight` and the loop adding
`embedding_weight * video['score']` into `final_scores`. -/
def addSimScores (w : ℚ) (sims : List Entry) (m : List Entry) : List Entry :=
  sims.foldl (fun acc p => dictAdd acc p.1 ((1 - w) * p.2)) m

/-- Lines 108-119: the accumulated `final_scores` dict (graph pass first, then
the similarity pass). -/
def finalScores (graph : List String) (sims : List Entry) (w : ℚ) (count : ℕ) : List Entry :=
  addSimScores w sims (addGraphScores count w graph [])

/-- One step of a stable descending insertion sort: the new entry passes every
entry with a strictly larger score and lands in front of the first entry whose
score is less than or equal to its own. -/
def insertDesc (p : Entry) : List Entry → List Entry
  | [] => [p]
  | q :: t => if q.2 ≤ p.2 then p :: q :: t else q :: insertDesc p t

/-- `sorted(items, key=score, reverse=True)`: Python's sort is stable, and
inserting from the right with `insertDesc` reproduces exactly that order. -/
def sortDesc (l : List Entry) : List Entry := l.foldr insertDesc []

/-- Line 122: `sorted(final_scores.items(), key=lambda x: x[1], reverse=True)[:count]`.
The scored merged ranking; the service then keeps the identifiers only. -/
def mergeRanked (graph : List String) (sims : List Entry) (w : ℚ) (count : ℕ) : List Entry :=
  (sortDesc (finalScores graph sims w count)).take count

/-- The identifier list the merge hands to `get_videos_by_ids` (line 123). -/
def mergeIds (graph : List String) (sims : List Entry) (w : ℚ) (count : ℕ) : List String :=
  keys (mergeRanked graph sims w count)

/-! ### Helper views used by the statements -/

/-- The scores of every occurrence of `id` in a ranked list. -/
def occScores (id : String) (l : List Entry) : List ℚ :=
  (l.filter (fun p => p.1 = id)).map Prod.snd

/-- The total positional contribution of the graph source for `id`: the sum of
`graphScore` over every rank at which `id` occurs in the graph list (a single
summand when the graph list has no duplicate identifiers, `0` when absent). -/
def graphContribution (count : ℕ) (w : ℚ) (graph : List String) (id : String) : ℚ :=
  ((graph.enum.filter (fun p => p.2 = id)).map (fun p => graphScore count p.1 w)).sum

/-- The similarity-source contribution for `id`: `(1 - graph_weight)` times the
sum of its reported similarity scores (a single summand when the similarity
list has no duplicate identifiers, `0` when absent). -/
def simContribution (w : ℚ) (sims : List Entry) (id : String) : ℚ :=
  (1 - w) * (occScores id sims).sum

/-- The number of unique identifiers across both input lists. -/
def uniqueCount (graph : List String) (sims : List Entry) : ℕ :=
  ((graph ++ keys sims).dedup).length

/-- The largest reported similarity score (`0` for an empty list; under the
non-negative-scores hypothesis this is `max(similarity_scores)`). -/
def maxScore (sims : List Entry) : ℚ := (sims.map Prod.snd).foldr max 0

/-! ### Generic accumulation: both score-adding loops are `addAll` instances -/

/-- Fold a list of (key, increment) pairs into an insertion-ordered dict. -/
def addAll (ps : List Entry) (m : List Entry) : List Entry :=
  ps.foldl (fun acc p => dictAdd acc p.1 p.2) m

/-- The (identifier, positional score) pairs the graph loop adds. -/
def graphPairs (count : ℕ) (w : ℚ) (graph : List String) : List Entry :=
  graph.enum.map (fun p => (p.2, graphScore count p.1 w))

/-- The (identifier, weighted score) pairs the similarity loop adds. -/
def simPairs (w : ℚ) (sims : List Entry) : List Entry :=
  sims.map (fun p => (p.1, (1 - w) * p.2))

/-! ### The multi-query deduplicate-by-key-keep-max-score reducer
(`VectorService.search_k_similar`, vector_service.py lines 202-223) -/

/-- Lines 213-217: find the first entry with this identifier and replace it
when the new score is strictly higher (`result['score'] > existing`). -/
def replaceIfHigher : List Entry → Entry → List Entry
  | [], _ => []
  | e :: t, r => if e.1 = r.1 then (if e.2 < r.2 then r :: t else e :: t)
      else e :: replaceIfHigher t r

/-- Lines 207-217, one `result`: an unseen identifier is appended (the
`seen_ids` set is exactly the set of identifiers already in `unique_results`),
a seen one keeps its position and keeps the higher score. -/
def dedupStep (acc : List Entry) (r : Entry) : List Entry :=
  if r.1 ∈ keys acc then replaceIfHigher acc r else acc ++ [r]

/-- Lines 207-217: the two nested loops over `all_results`. -/
def dedupMax (results : List (List Entry)) : List Entry :=
  results.foldl (fun acc l => l.foldl dedupStep acc) []

/-- Line 220: `sorted(unique_results, key=lambda x: x['score'], reverse=True)[:limit]`. -/
def searchKReduce (results : List (List Entry)) (limit : ℕ) : List Entry :=
  (sortDesc (dedupMax results)).take limit

/-! ### The interaction-graph reader
(`RecommendationService.get_graph_recommendations`, recommendation_service.py
lines 38-85; the identical copy in db_service.py lines 110-156).

The document database is modelled as two lookup tables; a Firestore
`order_by(score, DESCENDING).limit(n)` query is modelled as `sortDesc` +
`take n`. The Python `recommended_videos` value is a `set`, whose iteration
order carries no contract; it is modelled here as an insertion-ordered
deduplicating accumulator (`addVideos`), the most charitable deterministic
reading of `list(recommended_videos)`. Even under this reading the returned
list is not sorted by interaction weight: the code applies no sort to it. -/

structure GraphDB where
  userVideos : String → List Entry
  videoInteractions : String → List Entry

/-- Lines 42-62: fetch the user's top-100 videos, and for each video fetch its
top-20 interacting users, accumulating `user_scores[uid] += score` while
skipping the requesting user. -/
def userScores (db : GraphDB) (user : String) : List Entry :=
  ((sortDesc (db.userVideos user)).take 100).foldl
    (fun us p =>
      ((sortDesc (db.videoInteractions p.1)).take 20).foldl
        (fun us2 q => if q.1 = user then us2 else dictAdd us2 q.1 q.2) us) []

/-- Lines 74-77: the inner loop `recommended_videos.add(doc.id)` with the
early break once `len(recommended_videos) >= limit`. -/
def addVideos (limit : ℕ) : List String → List String → List String
  | acc, [] => acc
  | acc, v :: rest =>
    let acc2 := if v ∈ acc then acc else acc ++ [v]
    if limit ≤ acc2.length then acc2 else addVideos limit acc2 rest

/-- Lines 66-80: the outer loop over the top-5 similar users, each
contributing its top-20 videos, with the same early break. -/
def collectUsers (db : GraphDB) (limit : ℕ) : List String → List String → List String
  | acc, [] => acc
  | acc, u :: rest =>
    let acc2 := addVideos limit acc (keys ((sortDesc (db.userVideos u)).take 20))
    if limit ≤ acc2.length then acc2 else collectUsers db limit acc2 rest

/-- Lines 38-82: `sorted(user_scores, key=user_scores.get, reverse=True)[:5]`,
the collection loops, and the final `list(recommended_videos)[:limit]`. -/
def get_graph_recommendations (db : GraphDB) (user : String) (limit : ℕ) : List String :=
  (collectUsers db limit [] (keys ((sortDesc (userScores db user)).take 5))).take limit

/-- A small concrete database: user `"u"` interacted with video `"v"`; the
similar users are `"s1"` (aggregate score 2, one video `"a"` of weight 1) and
`"s2"` (aggregate score 1, one video `"b"` of weight 5). -/
def exampleDB : GraphDB where
  userVideos := fun u =>
    if u = "u" then [("v", 1)]
    else if u = "s1" then [("a", 1)]
    else if u = "s2" then [("b", 5)]
    else []
  videoInteractions := fun v => if v = "v" then [("s1", 2), ("s2", 1)] else []

/-! ### The agent dispatcher (`AgentService.route_request`, agent_service.py
lines 18-36).

The two agents are external collaborators (LLM-backed handlers); their calls
are modelled as total functions delivering a response. The `try/except` block
re-raises whatever it catches unchanged, so the dispatcher's own error
behaviour is exactly the `ValueError` of the final `else` branch, modelled as
`Except.error`. The LangSmith run tree is an optional ambient value; when
present, the research branch sets `response['run_id']`. -/

abbrev Dict := List (String × String)

/-- `response['run_id'] = rid`: overwrite in place or append. -/
def dictSet : Dict → String → String → Dict
  | [], k, v => [(k, v)]
  | e :: t, k, v => if e.1 = k then (k, v) :: t else e :: dictSet t k v

/-- Lines 18-36 of agent_service.py. -/
def route_request (researchProcess chatProcess : Dict → Dict) (runTree : Option String)
    (agent_type : String) (input : Dict) : Except String Dict :=
  if agent_type = "research" then
    Except.ok (match runTree with
      | some rid => dictSet (researchProcess input) "run_id" rid
      | none => researchProcess input)
  else if agent_type = "chat" then Except.ok (chatProcess input)
  else Except.error ("Unknown agent type: " ++ agent_type)

/-! ### Python-parity sanity checks -/

example : mergeRanked ["a", "b"] [] 1 2 = [("a", 1), ("b", 1/2)] := by
  norm_num +decide [mergeRanked, finalScores, addSimScores, addGraphScores, sortDesc,
    insertDesc, dictAdd, graphScore, List.enum, List.enumFrom]
example : mergeRanked ["a", "b"] [] 1 10 = [("a", 1), ("b", 9/10)] := by
  norm_num +decide [mergeRanked, finalScores, addSimScores, addGraphScores, sortDesc,
    insertDesc, dictAdd, graphScore, List.enum, List.enumFrom]
example : mergeRanked ["a"] [("b", 1)] (1/2) 1 = [("a", 1/2)] := by
  norm_num +decide [mergeRanked, finalScores, addSimScores, addGraphScores, sortDesc,
    insertDesc, dictAdd, graphScore, List.enum, List.enumFrom]
example : sortDesc [("a", 1), ("b", 2), ("c", 1)] = [("b", 2), ("a", 1), ("c", 1)] := by
  norm_num +decide [sortDesc, insertDesc]

theorem addGraphScores_eq_addAll (count : ℕ) (w : ℚ) (graph : List String) (m : List Entry) :
    addGraphScores count w graph m = addAll (graphPairs count w graph) m := by
  simp [addGraphScores, addAll, graphPairs, List.foldl_map]

theorem addSimScores_eq_addAll (w : ℚ) (sims : List Entry) (m : List Entry) :
    addSimScores w sims m = addAll (simPairs w sims) m := by
  simp [addSimScores, addAll, simPairs, List.foldl_map]

@[simp] theorem keys_nil : keys [] = [] := rfl

@[simp] theorem keys_cons (e : Entry) (t : List Entry) : keys (e :: t) = e.1 :: keys t := rfl

theorem lookupD_dictAdd (m : List Entry) (k a : String) (v : ℚ) :
    lookupD a (dictAdd m k v) = lookupD a m + (if a = k then v else 0) := by
  induction m with
  | nil =>
    by_cases h : a = k <;> simp [dictAdd, lookupD, h]
    exact fun h2 => absurd h2.symm h
  | cons e t ih =>
    by_cases h1 : e.1 = k
    · by_cases h2 : e.1 = a
      · have hak : a = k := h2 ▸ h1
        simp [dictAdd, lookupD, h1, h2, hak, add_assoc, add_comm v]
      · have hak : ¬ a = k := fun h => h2 (h ▸ h1.symm ▸ rfl)
        have hka : ¬ k = a := fun h => hak h.symm
        simp [dictAdd, lookupD, h1, h2, hak, hka]
    · by_cases h2 : e.1 = a
      · have hak : ¬ a = k := fun h => h1 (h2.trans h)
        simp [dictAdd, lookupD, h1, h2, hak]
      · simp [dictAdd, lookupD, h1, h2, ih]

theorem keys_dictAdd_of_mem (k : String) (v : ℚ) :
    ∀ (m : List Entry), k ∈ keys m → keys (dictAdd m k v) = keys m := by
  intro m
  induction m with
  | nil => intro h; simp at h
  | cons e t ih =>
    intro h
    by_cases h1 : e.1 = k
    · simp [dictAdd, h1]
    · have hk : k ∈ keys t := by
        rcases List.mem_cons.mp (by simpa using h) with h2 | h2
        · exact absurd h2.symm h1
        · exact h2
      have hstep : keys (dictAdd (e :: t) k v) = e.1 :: keys (dictAdd t k v) := by
        simp [dictAdd, h1]
      rw [hstep, ih hk]
      simp

theorem keys_dictAdd_of_not_mem (k : String) (v : ℚ) :
    ∀ (m : List Entry), k ∉ keys m → keys (dictAdd m k v) = keys m ++ [k] := by
  intro m
  induction m with
  | nil => intro _; simp [dictAdd]
  | cons e t ih =>
    intro h
    have h1 : ¬ e.1 = k := fun he => h (by simp [he])
    have ht : k ∉ keys t := fun hk => h (by simp [hk])
    have hstep : keys (dictAdd (e :: t) k v) = e.1 :: keys (dictAdd t k v) := by
      simp [dictAdd, h1]
    rw [hstep, ih ht]
    simp

theorem mem_keys_dictAdd {m : List Entry} {k a : String} (v : ℚ) :
    a ∈ keys (dictAdd m k v) ↔ a ∈ keys m ∨ a = k := by
  by_cases h : k ∈ keys m
  · rw [keys_dictAdd_of_mem k v m h]
    constructor
    · exact Or.inl
    · rintro (ha | rfl) <;> [exact ha; exact h]
  · rw [keys_dictAdd_of_not_mem k v m h]
    simp

theorem nodup_keys_dictAdd {m : List Entry} {k : String} (v : ℚ) (h : (keys m).Nodup) :
    (keys (dictAdd m k v)).Nodup := by
  by_cases hk : k ∈ keys m
  · rwa [keys_dictAdd_of_mem k v m hk]
  · rw [keys_dictAdd_of_not_mem k v m hk]
    simpa [List.nodup_append] using ⟨h, hk⟩

theorem lookupD_addAll (ps : List Entry) (a : String) :
    ∀ m, lookupD a (addAll ps m)
      = lookupD a m + ((ps.filter (fun p => p.1 = a)).map Prod.snd).sum := by
  induction ps with
  | nil => intro m; simp [addAll]
  | cons p t ih =>
    intro m
    have step : addAll (p :: t) m = addAll t (dictAdd m p.1 p.2) := rfl
    rw [step, ih, lookupD_dictAdd]
    by_cases h : p.1 = a
    · simp [List.filter_cons, h, add_assoc]
    · have h2 : ¬ a = p.1 := fun h3 => h h3.symm
      simp [List.filter_cons, h, h2]

theorem mem_keys_addAll (ps : List Entry) (a : String) :
    ∀ m, a ∈ keys (addAll ps m) ↔ a ∈ keys m ∨ a ∈ keys ps := by
  induction ps with
  | nil => intro m; simp [addAll, keys]
  | cons p t ih =>
    intro m
    have step : addAll (p :: t) m = addAll t (dictAdd m p.1 p.2) := rfl
    rw [step, ih, mem_keys_dictAdd]
    simp [keys]
    tauto

theorem nodup_keys_addAll (ps : List Entry) :
    ∀ m, (keys m).Nodup → (keys (addAll ps m)).Nodup := by
  induction ps with
  | nil => intro m h; simpa [addAll] using h
  | cons p t ih =>
    intro m h
    exact ih (dictAdd m p.1 p.2) (nodup_keys_dictAdd p.2 h)

theorem keys_addAll_of_nodup (ps : List Entry) :
    ∀ m, (keys ps).Nodup →
      keys (addAll ps m) = keys m ++ (keys ps).filter (fun k => k ∉ keys m) := by
  induction ps with
  | nil => intro m _; simp [addAll, keys]
  | cons p t ih =>
    intro m hnd
    have step : addAll (p :: t) m = addAll t (dictAdd m p.1 p.2) := rfl
    have hk : keys (p :: t) = p.1 :: keys t := rfl
    rw [hk] at hnd
    have hp : p.1 ∉ keys t := (List.nodup_cons.mp hnd).1
    have ht : (keys t).Nodup := (List.nodup_cons.mp hnd).2
    by_cases h : p.1 ∈ keys m
    · rw [step, ih _ ht, keys_dictAdd_of_mem p.1 p.2 m h, hk]
      have : (p.1 :: keys t).filter (fun k => k ∉ keys m)
          = (keys t).filter (fun k => k ∉ keys m) := by
        simp [List.filter_cons, h]
      rw [this]
    · rw [step, ih _ ht, keys_dictAdd_of_not_mem p.1 p.2 m h, hk]
      have hfilter : (keys t).filter (fun k => k ∉ keys m ++ [p.1])
          = (keys t).filter (fun k => k ∉ keys m) := by
        apply List.filter_congr
        intro x hx
        have hxp : ¬ x = p.1 := fun hxe => hp (hxe ▸ hx)
        simp [hxp]
      have hcons : (p.1 :: keys t).filter (fun k => k ∉ keys m)
          = p.1 :: (keys t).filter (fun k => k ∉ keys m) := by
        simp [List.filter_cons, h]
      rw [hfilter, hcons]
      simp

/-! ### The stable descending sort -/

theorem insertDesc_perm (p : Entry) (l : List Entry) :
    List.Perm (insertDesc p l) (p :: l) := by
  induction l with
  | nil => exact List.Perm.refl _
  | cons q t ih =>
    by_cases h : q.2 ≤ p.2
    · have h1 : insertDesc p (q :: t) = p :: q :: t := by simp [insertDesc, h]
      rw [h1]
    · have h1 : insertDesc p (q :: t) = q :: insertDesc p t := by simp [insertDesc, h]
      rw [h1]
      exact (ih.cons q).trans (List.Perm.swap p q t)

theorem sortDesc_perm (l : List Entry) : List.Perm (sortDesc l) l := by
  induction l with
  | nil => exact List.Perm.refl _
  | cons x t ih =>
    exact (insertDesc_perm x (sortDesc t)).trans (ih.cons x)

theorem mem_insertDesc {p q : Entry} {l : List Entry} (h : q ∈ insertDesc p l) :
    q = p ∨ q ∈ l := by
  have := (insertDesc_perm p l).mem_iff.mp h
  simpa using this

theorem pairwise_insertDesc {p : Entry} {l : List Entry}
    (h : l.Pairwise (fun a b : Entry => b.2 ≤ a.2)) :
    (insertDesc p l).Pairwise (fun a b : Entry => b.2 ≤ a.2) := by
  induction l with
  | nil => simp [insertDesc]
  | cons q t ih =>
    rcases List.pairwise_cons.mp h with ⟨hq, ht⟩
    by_cases hle : q.2 ≤ p.2
    · have hall : ∀ b ∈ q :: t, b.2 ≤ p.2 := by
        intro b hb
        rcases List.mem_cons.mp hb with rfl | hb
        · exact hle
        · exact (hq b hb).trans hle
      simpa [insertDesc, hle] using List.pairwise_cons.mpr ⟨hall, h⟩
    · have hstep : insertDesc p (q :: t) = q :: insertDesc p t := by simp [insertDesc, hle]
      rw [hstep]
      refine List.pairwise_cons.mpr ⟨?_, ih ht⟩
      intro b hb
      rcases mem_insertDesc hb with rfl | hb
      · exact le_of_not_le hle
      · exact hq b hb

theorem sortDesc_sorted (l : List Entry) :
    (sortDesc l).Pairwise (fun a b : Entry => b.2 ≤ a.2) := by
  induction l with
  | nil => simp [sortDesc]
  | cons x t ih => exact pairwise_insertDesc ih

/-- `insertDesc` inserts the new entry right after the entries whose score is
strictly larger, leaving everything else in place. -/
theorem insertDesc_split (p : Entry) (l : List Entry) :
    ∃ l₁ l₂, l = l₁ ++ l₂ ∧ insertDesc p l = l₁ ++ p :: l₂ ∧ ∀ q ∈ l₁, p.2 < q.2 := by
  induction l with
  | nil => exact ⟨[], [], by simp [insertDesc]⟩
  | cons q t ih =>
    by_cases h : q.2 ≤ p.2
    · exact ⟨[], q :: t, by simp [insertDesc, h]⟩
    · rcases ih with ⟨l₁, l₂, heq, hins, hgt⟩
      refine ⟨q :: l₁, l₂, by simp [heq], by simp [insertDesc, h, hins], ?_⟩
      intro r hr
      rcases List.mem_cons.mp hr with rfl | hr
      · exact lt_of_not_le h
      · exact hgt r hr

theorem sublist_insertDesc {s l : List Entry} (p : Entry) (h : s.Sublist l) :
    s.Sublist (insertDesc p l) := by
  rcases insertDesc_split p l with ⟨l₁, l₂, heq, hins, _⟩
  rw [hins]
  have h2 : (l₁ ++ l₂).Sublist (l₁ ++ p :: l₂) :=
    (List.sublist_cons_self p l₂).append_left l₁
  exact (heq ▸ h).trans h2

/-- Stability of the sort: two entries with equal scores keep their relative
order from the unsorted list. -/
theorem sortDesc_stable {p q : Entry} (hpq : p.2 = q.2) :
    ∀ l : List Entry, [p, q].Sublist l → [p, q].Sublist (sortDesc l) := by
  intro l
  induction l with
  | nil => intro h; simp at h
  | cons x t ih =>
    intro h
    cases h with
    | cons _ h1 =>
      exact sublist_insertDesc x (ih h1)
    | cons₂ _ h1 =>
      have hq : q ∈ sortDesc t := (sortDesc_perm t).mem_iff.mpr (List.singleton_sublist.mp h1)
      rcases insertDesc_split p (sortDesc t) with ⟨l₁, l₂, heq, hins, hgt⟩
      have hq2 : q ∈ l₂ := by
        rcases List.mem_append.mp (heq ▸ hq) with h2 | h2
        · exact absurd (hpq ▸ hgt q h2) (lt_irrefl _)
        · exact h2
      have hsub : [p, q].Sublist (p :: l₂) :=
        (List.singleton_sublist.mpr hq2).cons₂ p
      show [p, q].Sublist (insertDesc p (sortDesc t))
      rw [hins]
      exact hsub.trans (List.sublist_append_right l₁ (p :: l₂))

/-! ### Facts about the accumulated `final_scores` dict -/

theorem lookupD_eq_of_mem {p : Entry} :
    ∀ (m : List Entry), (keys m).Nodup → p ∈ m → lookupD p.1 m = p.2 := by
  intro m
  induction m with
  | nil => intro _ h; simp at h
  | cons e t ih =>
    intro hnd hp
    rcases List.nodup_cons.mp (by simpa using hnd) with ⟨he, ht⟩
    rcases List.mem_cons.mp hp with rfl | hp
    · simp [lookupD]
    · have h1 : ¬ e.1 = p.1 := by
        intro heq
        exact he (heq ▸ List.mem_map_of_mem Prod.fst hp)
      simp only [lookupD, h1, if_false]
      exact ih ht hp

theorem keys_graphPairs (count : ℕ) (w : ℚ) (graph : List String) :
    keys (graphPairs count w graph) = graph := by
  simp [keys, graphPairs, List.map_map, Function.comp_def, List.enum_map_snd]

theorem keys_simPairs (w : ℚ) (sims : List Entry) :
    keys (simPairs w sims) = keys sims := by
  simp [keys, simPairs, List.map_map, Function.comp_def]

theorem mul_sum_map (b : ℚ) (f : Entry → ℚ) :
    ∀ l : List Entry, (l.map (fun p => b * f p)).sum = b * (l.map f).sum := by
  intro l
  induction l with
  | nil => simp
  | cons x t ih => simp [ih, mul_add]

theorem lookupD_finalScores (g : List String) (s : List Entry) (w : ℚ) (c : ℕ) (a : String) :
    lookupD a (finalScores g s w c) = graphContribution c w g a + simContribution w s a := by
  rw [finalScores, addSimScores_eq_addAll, addGraphScores_eq_addAll,
    lookupD_addAll, lookupD_addAll]
  have h1 : lookupD a ([] : List Entry) = 0 := rfl
  have h2 : (((graphPairs c w g).filter (fun p => p.1 = a)).map Prod.snd).sum
      = graphContribution c w g a := by
    simp [graphPairs, graphContribution, List.filter_map, List.map_map, Function.comp_def]
  have h3 : (((simPairs w s).filter (fun p => p.1 = a)).map Prod.snd).sum
      = simContribution w s a := by
    simp only [simPairs, List.filter_map, List.map_map, Function.comp_def,
      simContribution, occScores]
    exact mul_sum_map (1 - w) Prod.snd _
  rw [h1, h2, h3, zero_add]

theorem mem_keys_finalScores (g : List String) (s : List Entry) (w : ℚ) (c : ℕ) (a : String) :
    a ∈ keys (finalScores g s w c) ↔ a ∈ g ∨ a ∈ keys s := by
  rw [finalScores, addSimScores_eq_addAll, addGraphScores_eq_addAll,
    mem_keys_addAll, mem_keys_addAll, keys_graphPairs, keys_simPairs]
  simp

theorem nodup_keys_finalScores (g : List String) (s : List Entry) (w : ℚ) (c : ℕ) :
    (keys (finalScores g s w c)).Nodup := by
  rw [finalScores, addSimScores_eq_addAll, addGraphScores_eq_addAll]
  exact nodup_keys_addAll _ _ (nodup_keys_addAll _ _ (by simp))

/-- With duplicate-free inputs, the dict's insertion order is: the graph
identifiers in graph order, then the similarity-only identifiers in
similarity order. -/
theorem keys_finalScores_of_nodup {g : List String} {s : List Entry}
    (hg : g.Nodup) (hs : (keys s).Nodup) (w : ℚ) (c : ℕ) :
    keys (finalScores g s w c) = g ++ (keys s).filter (fun a => a ∉ g) := by
  rw [finalScores, addSimScores_eq_addAll, addGraphScores_eq_addAll,
    keys_addAll_of_nodup _ _ (by rw [keys_simPairs]; exact hs),
    keys_addAll_of_nodup _ _ (by rw [keys_graphPairs]; exact hg),
    keys_graphPairs, keys_simPairs]
  simp

theorem length_finalScores (g : List String) (s : List Entry) (w : ℚ) (c : ℕ) :
    (finalScores g s w c).length = uniqueCount g s := by
  have hnd := nodup_keys_finalScores g s w c
  have hmem : ∀ a, a ∈ keys (finalScores g s w c) ↔ a ∈ (g ++ keys s).dedup := by
    intro a
    rw [List.mem_dedup, List.mem_append]
    exact mem_keys_finalScores g s w c a
  have hperm : List.Perm (keys (finalScores g s w c)) ((g ++ keys s).dedup) :=
    (List.perm_ext_iff_of_nodup hnd (List.nodup_dedup _)).mpr hmem
  calc (finalScores g s w c).length
      = (keys (finalScores g s w c)).length := (List.length_map _ _).symm
    _ = ((g ++ keys s).dedup).length := hperm.length_eq
    _ = uniqueCount g s := rfl

/-! ### Positions in the graph list -/

theorem snd_mem_of_mem_enumFrom {a : String} :
    ∀ (g : List String) (n i : ℕ), (i, a) ∈ g.enumFrom n → a ∈ g := by
  intro g
  induction g with
  | nil => intro n i h; simp [List.enumFrom] at h
  | cons x t ih =>
    intro n i h
    have hsplit : (i = n ∧ a = x) ∨ (i, a) ∈ t.enumFrom (n + 1) := by
      simpa [List.enumFrom] using h
    rcases hsplit with ⟨_, rfl⟩ | h1
    · exact List.mem_cons_self _ _
    · exact List.mem_cons_of_mem x (ih (n + 1) i h1)

theorem exists_mem_enumFrom {a : String} :
    ∀ (g : List String) (n : ℕ), a ∈ g → ∃ i, (i, a) ∈ g.enumFrom n := by
  intro g
  induction g with
  | nil => intro n h; simp at h
  | cons x t ih =>
    intro n h
    rcases List.mem_cons.mp h with rfl | h
    · exact ⟨n, by simp [List.enumFrom]⟩
    · rcases ih (n + 1) h with ⟨i, hi⟩
      exact ⟨i, by simp [List.enumFrom]; right; exact hi⟩

theorem enumFrom_filter_not_mem (a : String) :
    ∀ (g : List String) (n : ℕ), a ∉ g → (g.enumFrom n).filter (fun p => p.2 = a) = [] := by
  intro g
  induction g with
  | nil => intro n _; rfl
  | cons x t ih =>
    intro n h
    have hx : ¬ x = a := fun hxa => h (by simp [hxa])
    have ht : a ∉ t := fun hm => h (List.mem_cons_of_mem x hm)
    simp [List.enumFrom, List.filter_cons, hx, ih (n + 1) ht]

theorem enumFrom_filter_single (a : String) :
    ∀ (g : List String) (n i : ℕ), g.Nodup → (i, a) ∈ g.enumFrom n →
      (g.enumFrom n).filter (fun p => p.2 = a) = [(i, a)] := by
  intro g
  induction g with
  | nil => intro n i _ h; simp [List.enumFrom] at h
  | cons x t ih =>
    intro n i hnd hmem
    rcases List.nodup_cons.mp hnd with ⟨hx, ht⟩
    by_cases hxa : x = a
    · subst hxa
      have htail : (t.enumFrom (n + 1)).filter (fun p => p.2 = x) = [] :=
        enumFrom_filter_not_mem x t (n + 1) hx
      have hsplit : i = n ∨ (i, x) ∈ t.enumFrom (n + 1) := by
        simpa [List.enumFrom] using hmem
      have hin : i = n := by
        rcases hsplit with h | h
        · exact h
        · exact absurd (snd_mem_of_mem_enumFrom t (n + 1) i h) hx
      subst hin
      simp [List.enumFrom, List.filter_cons, htail]
    · have hsplit : (i = n ∧ a = x) ∨ (i, a) ∈ t.enumFrom (n + 1) := by
        simpa [List.enumFrom] using hmem
      have hmem2 : (i, a) ∈ t.enumFrom (n + 1) := by
        rcases hsplit with ⟨_, hax⟩ | h
        · exact absurd hax.symm hxa
        · exact h
      simp [List.enumFrom, List.filter_cons, hxa, ih (n + 1) i ht hmem2]

theorem graphContribution_single {g : List String} (hg : g.Nodup) {i : ℕ} {a : String}
    (h : (i, a) ∈ g.enum) (c : ℕ) (w : ℚ) :
    graphContribution c w g a = graphScore c i w := by
  have hf : g.enum.filter (fun p => p.2 = a) = [(i, a)] :=
    enumFrom_filter_single a g 0 i hg h
  simp [graphContribution, hf]

theorem graphContribution_zero {g : List String} {a : String} (h : a ∉ g) (c : ℕ) (w : ℚ) :
    graphContribution c w g a = 0 := by
  have hf : g.enum.filter (fun p => p.2 = a) = [] := enumFrom_filter_not_mem a g 0 h
  simp [graphContribution, hf]

/-! ### Occurrences in the similarity list -/

theorem filter_keys_not_mem {a : String} :
    ∀ (s : List Entry), a ∉ keys s → s.filter (fun p => p.1 = a) = [] := by
  intro s
  induction s with
  | nil => intro _; rfl
  | cons e t ih =>
    intro h
    have h1 : ¬ e.1 = a := fun he => h (by simp [he])
    have ht : a ∉ keys t := fun hm => h (by simp [hm])
    simp [List.filter_cons, h1, ih ht]

theorem filter_keys_single {x : Entry} :
    ∀ (s : List Entry), (keys s).Nodup → x ∈ s → s.filter (fun p => p.1 = x.1) = [x] := by
  intro s
  induction s with
  | nil => intro _ h; simp at h
  | cons e t ih =>
    intro hnd hx
    rcases List.nodup_cons.mp (by simpa using hnd) with ⟨he, ht⟩
    rcases List.mem_cons.mp hx with rfl | hx
    · have htail : t.filter (fun p => p.1 = x.1) = [] := filter_keys_not_mem t he
      simp [List.filter_cons, htail]
    · have h1 : ¬ e.1 = x.1 := by
        intro heq
        exact he (heq ▸ List.mem_map_of_mem Prod.fst hx)
      simp [List.filter_cons, h1, ih ht hx]

theorem simContribution_single {s : List Entry} (hs : (keys s).Nodup) {x : Entry}
    (hx : x ∈ s) (w : ℚ) : simContribution w s x.1 = (1 - w) * x.2 := by
  simp [simContribution, occScores, filter_keys_single s hs hx]

theorem simContribution_zero {s : List Entry} {a : String} (h : a ∉ keys s) (w : ℚ) :
    simContribution w s a = 0 := by
  simp [simContribution, occScores, filter_keys_not_mem s h]

/-! ### Score bounds -/

theorem graphScore_le (c i : ℕ) {w : ℚ} (hw : 0 ≤ w) : graphScore c i w ≤ w := by
  unfold graphScore
  rcases Nat.eq_zero_or_pos c with hc | hc
  · subst hc
    simp [hw]
  · have hcq : (0 : ℚ) < (c : ℚ) := by exact_mod_cast hc
    have h1 : ((c : ℚ) - (i : ℚ)) / (c : ℚ) ≤ 1 := by
      rw [div_le_one hcq]
      have h2 : (0 : ℚ) ≤ (i : ℚ) := Nat.cast_nonneg i
      linarith
    calc ((c : ℚ) - (i : ℚ)) / (c : ℚ) * w ≤ 1 * w := mul_le_mul_of_nonneg_right h1 hw
      _ = w := one_mul w

theorem foldr_max_nonneg : ∀ l : List ℚ, 0 ≤ l.foldr max 0 := by
  intro l
  induction l with
  | nil => simp
  | cons y t ih => exact ih.trans (le_max_right y _)

theorem le_foldr_max {x : ℚ} : ∀ l : List ℚ, x ∈ l → x ≤ l.foldr max 0 := by
  intro l
  induction l with
  | nil => intro h; simp at h
  | cons y t ih =>
    intro h
    rcases List.mem_cons.mp h with rfl | h
    · exact le_max_left x _
    · exact (ih h).trans (le_max_right y _)

theorem maxScore_nonneg (s : List Entry) : 0 ≤ maxScore s := foldr_max_nonneg _

theorem mem_maxScore_le {s : List Entry} {x : Entry} (hx : x ∈ s) : x.2 ≤ maxScore s :=
  le_foldr_max _ (List.mem_map_of_mem Prod.snd hx)

/-- With duplicate-free inputs and a weight in `[0, 1]`, every accumulated
score is at most `graph_weight + (1 - graph_weight) * max(similarity_scores)`. -/
theorem finalScore_le {g : List String} {s : List Entry} {w : ℚ} {c : ℕ}
    (hg : g.Nodup) (hs : (keys s).Nodup) (hw0 : 0 ≤ w) (hw1 : w ≤ 1) {p : Entry}
    (hp : p ∈ finalScores g s w c) :
    p.2 ≤ w + (1 - w) * maxScore s := by
  have hval : p.2 = graphContribution c w g p.1 + simContribution w s p.1 :=
    (lookupD_eq_of_mem _ (nodup_keys_finalScores g s w c) hp).symm.trans
      (lookupD_finalScores g s w c p.1)
  have hgc : graphContribution c w g p.1 ≤ w := by
    by_cases hmem : p.1 ∈ g
    · rcases exists_mem_enumFrom g 0 hmem with ⟨i, hi⟩
      rw [graphContribution_single hg hi]
      exact graphScore_le c i hw0
    · rw [graphContribution_zero hmem]
      exact hw0
  have hsc : simContribution w s p.1 ≤ (1 - w) * maxScore s := by
    by_cases hmem : p.1 ∈ keys s
    · have hx2 : ∃ v, (p.1, v) ∈ s := by simpa [keys] using hmem
      rcases hx2 with ⟨v, hv⟩
      have hsingle : simContribution w s p.1 = (1 - w) * v := simContribution_single hs hv w
      rw [hsingle]
      exact mul_le_mul_of_nonneg_left (mem_maxScore_le hv) (by linarith)
    · rw [simContribution_zero hmem]
      exact mul_nonneg (by linarith) (maxScore_nonneg s)
  rw [hval]
  exact add_le_add hgc hsc

/-! ### From `final_scores` to the truncated output -/

theorem mem_finalScores_of_mem_mergeRanked {g : List String} {s : List Entry} {w : ℚ}
    {c : ℕ} {p : Entry} (hp : p ∈ mergeRanked g s w c) : p ∈ finalScores g s w c :=
  (sortDesc_perm _).mem_iff.mp (List.mem_of_mem_take hp)

theorem nodup_keys_mergeRanked (g : List String) (s : List Entry) (w : ℚ) (c : ℕ) :
    (keys (mergeRanked g s w c)).Nodup := by
  have hperm : List.Perm (keys (sortDesc (finalScores g s w c)))
      (keys (finalScores g s w c)) := (sortDesc_perm _).map Prod.fst
  have h1 : (keys (sortDesc (finalScores g s w c))).Nodup :=
    hperm.nodup_iff.mpr (nodup_keys_finalScores g s w c)
  exact List.Nodup.sublist ((List.take_sublist c _).map Prod.fst) h1

/-! ### Claim theorems for the hybrid merge -/

/-- C1 (counterexample): the graph positional decay divides by the requested
`count`, not by the number of graph items. Merging `["a", "b"]` with an empty
similarity list at `graph_weight 1.0` and `count 10` gives `"b"` the score
`(10 - 1) / 10 = 9/10`, not the `(2 - 1) / 2 = 1/2` the claim asserts for
every `count ≥ 2`. -/
theorem graph_decay_divisor_counterexample :
    lookupD "b" (finalScores ["a", "b"] [] 1 10) = 9 / 10 ∧ ¬ ((9 : ℚ) / 10 = 1 / 2) := by
  constructor
  · norm_num +decide [finalScores, addSimScores, addGraphScores, dictAdd, graphScore,
      lookupD, List.enum, List.enumFrom]
  · norm_num

/-- C1 (amended): each entry of the graph list at zero-based rank `i` receives
the synthetic score `(count - i) / count * graph_weight`, the divisor being the
requested `count`; the claimed example holds exactly when `count = 2`, where
`merge(["a", "b"], [], 1.0, 2)` yields `["a", "b"]` with scores `1` and `1/2`. -/
theorem graph_position_scores (g : List String) (w : ℚ) (c : ℕ) (hg : g.Nodup) :
    (∀ i a, (i, a) ∈ g.enum → lookupD a (finalScores g [] w c) = graphScore c i w)
    ∧ mergeRanked ["a", "b"] [] 1 2 = [("a", 1), ("b", 1 / 2)] := by
  constructor
  · intro i a hia
    rw [lookupD_finalScores, simContribution_zero (by simp),
      graphContribution_single hg hia, add_zero]
  · norm_num +decide [mergeRanked, finalScores, addSimScores, addGraphScores, sortDesc,
      insertDesc, dictAdd, graphScore, List.enum, List.enumFrom]

/-- C1 (witness): the amended theorem applied at `g = ["a", "b"]`, `w = 1`,
`count = 2`, rank `1` holding identifier `"b"`. -/
theorem graph_position_scores_witness :
    lookupD "b" (finalScores ["a", "b"] [] 1 2) = graphScore 2 1 1
    ∧ mergeRanked ["a", "b"] [] 1 2 = [("a", 1), ("b", 1 / 2)] := by
  have h := graph_position_scores ["a", "b"] 1 2 (by decide)
  exact ⟨h.1 1 "b" (by decide), h.2⟩

/-- C2: every identifier appearing in either input occurs at most once in the
merged output, and each output entry's score is the sum of its graph
positional contribution and `(1 - graph_weight)` times its similarity score,
each contribution being `0` for a source the identifier is absent from. -/
theorem merge_score_decomposition (g : List String) (s : List Entry) (w : ℚ) (c : ℕ) :
    (keys (mergeRanked g s w c)).Nodup
    ∧ ∀ p ∈ mergeRanked g s w c,
        p.2 = graphContribution c w g p.1 + simContribution w s p.1 := by
  refine ⟨nodup_keys_mergeRanked g s w c, ?_⟩
  intro p hp
  exact (lookupD_eq_of_mem _ (nodup_keys_finalScores g s w c)
    (mem_finalScores_of_mem_mergeRanked hp)).symm.trans (lookupD_finalScores g s w c p.1)

/-- C3 (counterexample): with the disjoint inputs `["a"]` and `[("b", 1)]` and
`count = 1`, the two entries tie at score `1/2`, the tie is broken in favour of
`"a"`, and truncation drops `"b"`: the output does not contain the union. -/
theorem merge_union_truncation_counterexample :
    (∀ a ∈ ["a"], a ∉ keys [(("b" : String), (1 : ℚ))])
    ∧ "b" ∈ keys [(("b" : String), (1 : ℚ))]
    ∧ "b" ∉ keys (mergeRanked ["a"] [("b", 1)] (1 / 2) 1) := by
  refine ⟨by decide, by decide, ?_⟩
  have hcalc : mergeRanked ["a"] [("b", 1)] (1 / 2) 1 = [("a", 1 / 2)] := by
    norm_num +decide [mergeRanked, finalScores, addSimScores, addGraphScores, sortDesc,
      insertDesc, dictAdd, graphScore, List.enum, List.enumFrom]
  rw [hcalc]
  decide

/-- C3 (amended): when `count` is at least the number of unique identifiers,
the merged output of disjoint inputs contains exactly the union of the two
identifier sets, each identifier exactly once. -/
theorem merge_union_of_enough_count (g : List String) (s : List Entry) (w : ℚ) (c : ℕ)
    (_hdisj : ∀ a ∈ g, a ∉ keys s) (hc : uniqueCount g s ≤ c) :
    (keys (mergeRanked g s w c)).Nodup
    ∧ ∀ a, a ∈ keys (mergeRanked g s w c) ↔ (a ∈ g ∨ a ∈ keys s) := by
  refine ⟨nodup_keys_mergeRanked g s w c, ?_⟩
  intro a
  have hlen : (sortDesc (finalScores g s w c)).length ≤ c := by
    rw [(sortDesc_perm _).length_eq, length_finalScores]
    exact hc
  have htake : mergeRanked g s w c = sortDesc (finalScores g s w c) := by
    rw [mergeRanked, List.take_of_length_le hlen]
  have hperm : List.Perm (keys (sortDesc (finalScores g s w c)))
      (keys (finalScores g s w c)) := (sortDesc_perm _).map Prod.fst
  rw [htake, hperm.mem_iff]
  exact mem_keys_finalScores g s w c a

/-- C3 (witness): the amended theorem at `g = ["a"]`, `s = [("b", 1)]`,
`w = 1/2`, `count = 2`: both identifiers appear, each once. -/
theorem merge_union_of_enough_count_witness :
    (keys (mergeRanked ["a"] [("b", 1)] (1 / 2) 2)).Nodup
    ∧ ∀ a, a ∈ keys (mergeRanked ["a"] [("b", 1)] (1 / 2) 2)
        ↔ (a ∈ ["a"] ∨ a ∈ keys [(("b" : String), (1 : ℚ))]) :=
  merge_union_of_enough_count ["a"] [("b", 1)] (1 / 2) 2 (by decide) (by decide)

/-- C4: with identifiers distinct within each source, non-negative similarity
scores and a blend weight in `[0, 1]` (the contract's domain for it), the
merged output is sorted descending by score and no score exceeds
`graph_weight + (1 - graph_weight) * max(similarity_scores)`. -/
theorem merge_sorted_and_bounded (g : List String) (s : List Entry) (w : ℚ) (c : ℕ)
    (hg : g.Nodup) (hs : (keys s).Nodup) (hw0 : 0 ≤ w) (hw1 : w ≤ 1)
    (_hpos : ∀ p ∈ s, 0 ≤ p.2) :
    (mergeRanked g s w c).Pairwise (fun a b : Entry => b.2 ≤ a.2)
    ∧ ∀ p ∈ mergeRanked g s w c, p.2 ≤ w + (1 - w) * maxScore s := by
  constructor
  · exact List.Pairwise.sublist (List.take_sublist c _) (sortDesc_sorted _)
  · intro p hp
    exact finalScore_le hg hs hw0 hw1 (mem_finalScores_of_mem_mergeRanked hp)

/-- C4 (witness): the theorem at `g = ["a"]`, `s = [("b", 1)]`, `w = 1/2`,
`count = 2`. -/
theorem merge_sorted_and_bounded_witness :
    (mergeRanked ["a"] [("b", 1)] (1 / 2) 2).Pairwise (fun a b : Entry => b.2 ≤ a.2)
    ∧ ∀ p ∈ mergeRanked ["a"] [("b", 1)] (1 / 2) 2,
        p.2 ≤ 1 / 2 + (1 - 1 / 2) * maxScore [(("b" : String), (1 : ℚ))] :=
  merge_sorted_and_bounded ["a"] [("b", 1)] (1 / 2) 2 (by decide) (by decide)
    (by norm_num) (by norm_num) (by norm_num)

/-- C5: the merged output's length is `min(count, number of unique identifiers
across both inputs)`, for every merge input and every count. -/
theorem merge_length_eq_min (g : List String) (s : List Entry) (w : ℚ) (c : ℕ) :
    (mergeRanked g s w c).length = min c (uniqueCount g s) := by
  rw [mergeRanked, List.length_take, (sortDesc_perm _).length_eq, length_finalScores]

/-- C6: merging two empty input lists returns the empty list, for every
`graph_weight` and every `count`; no error path exists in the embedding. -/
theorem merge_empty_inputs (w : ℚ) (c : ℕ) : mergeRanked [] [] w c = [] := by
  show (sortDesc (finalScores [] [] w c)).take c = []
  have h : sortDesc (finalScores [] [] w c) = [] := rfl
  rw [h, List.take_nil]

/-- C7: with duplicate-free inputs, the dict's insertion order is the graph
identifiers in graph order followed by the similarity-only identifiers in
similarity order, and the descending sort is stable with respect to it: two
entries with equal scores keep that relative order, both before and after the
`count` truncation. -/
theorem merge_stable_tiebreak (g : List String) (s : List Entry) (w : ℚ) (c : ℕ)
    (hg : g.Nodup) (hs : (keys s).Nodup) :
    keys (finalScores g s w c) = g ++ (keys s).filter (fun a => a ∉ g)
    ∧ (∀ p q : Entry, p.2 = q.2 → [p, q].Sublist (finalScores g s w c) →
        [p, q].Sublist (sortDesc (finalScores g s w c)))
    ∧ mergeRanked g s w c = (sortDesc (finalScores g s w c)).take c :=
  ⟨keys_finalScores_of_nodup hg hs w c,
    fun _ _ hpq hsub => sortDesc_stable hpq _ hsub, rfl⟩

/-- C7 (witness): the theorem at `g = ["a"]`, `s = [("b", 1)]`, `w = 1/2`,
`count = 2`, where both entries tie at score `1/2`. -/
theorem merge_stable_tiebreak_witness :
    keys (finalScores ["a"] [("b", 1)] (1 / 2) 2)
      = ["a"] ++ (keys [(("b" : String), (1 : ℚ))]).filter (fun a => a ∉ ["a"])
    ∧ (∀ p q : Entry, p.2 = q.2 → [p, q].Sublist (finalScores ["a"] [("b", 1)] (1 / 2) 2) →
        [p, q].Sublist (sortDesc (finalScores ["a"] [("b", 1)] (1 / 2) 2)))
    ∧ mergeRanked ["a"] [("b", 1)] (1 / 2) 2
      = (sortDesc (finalScores ["a"] [("b", 1)] (1 / 2) 2)).take 2 :=
  merge_stable_tiebreak ["a"] [("b", 1)] (1 / 2) 2 (by decide) (by decide)

theorem dedupMax_eq_join (results : List (List Entry)) :
    dedupMax results = results.flatten.foldl dedupStep [] := by
  rw [dedupMax, List.foldl_flatten]

theorem keys_replaceIfHigher (r : Entry) :
    ∀ m : List Entry, keys (replaceIfHigher m r) = keys m := by
  intro m
  induction m with
  | nil => rfl
  | cons e t ih =>
    by_cases h1 : e.1 = r.1
    · by_cases h2 : e.2 < r.2 <;> simp [replaceIfHigher, h1, h2]
    · simp [replaceIfHigher, h1, ih]

theorem mem_replaceIfHigher {p r : Entry} :
    ∀ m : List Entry, p ∈ replaceIfHigher m r → p ∈ m ∨ p = r := by
  intro m
  induction m with
  | nil => intro h; simp [replaceIfHigher] at h
  | cons e t ih =>
    intro h
    by_cases h1 : e.1 = r.1
    · by_cases h2 : e.2 < r.2
      · rcases List.mem_cons.mp (by simpa [replaceIfHigher, h1, h2] using h) with rfl | hm
        · exact Or.inr rfl
        · exact Or.inl (List.mem_cons_of_mem e hm)
      · exact Or.inl (by simpa [replaceIfHigher, h1, h2] using h)
    · rcases List.mem_cons.mp (by simpa [replaceIfHigher, h1] using h) with rfl | hm
      · exact Or.inl (List.mem_cons_self _ _)
      · rcases ih hm with hp | hp
        · exact Or.inl (List.mem_cons_of_mem e hp)
        · exact Or.inr hp

theorem replaceIfHigher_exists {q : Entry} (r : Entry) :
    ∀ m : List Entry, q ∈ m →
      ∃ x ∈ replaceIfHigher m r, x.1 = q.1 ∧ q.2 ≤ x.2 := by
  intro m
  induction m with
  | nil => intro h; simp at h
  | cons e t ih =>
    intro hq
    rcases List.mem_cons.mp hq with rfl | hq
    · by_cases h1 : q.1 = r.1
      · by_cases h2 : q.2 < r.2
        · exact ⟨r, by simp [replaceIfHigher, h1, h2], h1.symm, le_of_lt h2⟩
        · exact ⟨q, by simp [replaceIfHigher, h1, h2], rfl, le_refl _⟩
      · refine ⟨q, ?_, rfl, le_refl _⟩
        have h1s : ¬ q.1 = r.1 := h1
        simp [replaceIfHigher, h1s]
    · by_cases h1 : e.1 = r.1
      · by_cases h2 : e.2 < r.2
        · exact ⟨q, by simp [replaceIfHigher, h1, h2, hq], rfl, le_refl _⟩
        · exact ⟨q, by simp [replaceIfHigher, h1, h2, hq], rfl, le_refl _⟩
      · rcases ih hq with ⟨x, hx, hx1, hx2⟩
        exact ⟨x, by simp [replaceIfHigher, h1]; right; exact hx, hx1, hx2⟩

theorem replaceIfHigher_ge {p r : Entry} :
    ∀ m : List Entry, (keys m).Nodup → p ∈ replaceIfHigher m r → p.1 = r.1 →
      r.1 ∈ keys m → r.2 ≤ p.2 := by
  intro m
  induction m with
  | nil => intro _ _ _ h; simp at h
  | cons e t ih =>
    intro hnd hp hpr hk
    rcases List.nodup_cons.mp (by simpa using hnd) with ⟨he, ht⟩
    by_cases h1 : e.1 = r.1
    · by_cases h2 : e.2 < r.2
      · rcases List.mem_cons.mp (by simpa [replaceIfHigher, h1, h2] using hp) with rfl | hm
        · exact le_refl _
        · exact absurd (hpr ▸ List.mem_map_of_mem Prod.fst hm) (h1 ▸ he)
      · rcases List.mem_cons.mp (by simpa [replaceIfHigher, h1, h2] using hp) with rfl | hm
        · exact le_of_not_lt h2
        · exact absurd (hpr ▸ List.mem_map_of_mem Prod.fst hm) (h1 ▸ he)
    · have hk2 : r.1 ∈ keys t := by
        rcases List.mem_cons.mp (by simpa using hk) with h | h
        · exact absurd h.symm h1
        · exact h
      rcases List.mem_cons.mp (by simpa [replaceIfHigher, h1] using hp) with rfl | hm
      · exact absurd (hpr.symm : r.1 = p.1).symm h1
      · exact ih ht hm hpr hk2

theorem keys_dedupStep_of_mem {m : List Entry} {r : Entry} (h : r.1 ∈ keys m) :
    keys (dedupStep m r) = keys m := by
  simp [dedupStep, h, keys_replaceIfHigher]

theorem keys_dedupStep_of_not_mem {m : List Entry} {r : Entry} (h : r.1 ∉ keys m) :
    keys (dedupStep m r) = keys m ++ [r.1] := by
  simp only [dedupStep, if_neg h]
  simp [keys]

theorem nodup_keys_dedupStep {m : List Entry} (r : Entry) (h : (keys m).Nodup) :
    (keys (dedupStep m r)).Nodup := by
  by_cases hk : r.1 ∈ keys m
  · rwa [keys_dedupStep_of_mem hk]
  · rw [keys_dedupStep_of_not_mem hk]
    simpa [List.nodup_append] using ⟨h, hk⟩

theorem mem_dedupStep {m : List Entry} {r p : Entry} (h : p ∈ dedupStep m r) :
    p ∈ m ∨ p = r := by
  by_cases hk : r.1 ∈ keys m
  · exact mem_replaceIfHigher m (by simpa [dedupStep, hk] using h)
  · simpa [dedupStep, hk] using h

theorem dedupStep_exists {m : List Entry} {q : Entry} (r : Entry) (hq : q ∈ m) :
    ∃ x ∈ dedupStep m r, x.1 = q.1 ∧ q.2 ≤ x.2 := by
  by_cases hk : r.1 ∈ keys m
  · rcases replaceIfHigher_exists r m hq with ⟨x, hx, hx1, hx2⟩
    exact ⟨x, by simpa [dedupStep, hk] using hx, hx1, hx2⟩
  · exact ⟨q, by simp [dedupStep, hk]; left; exact hq, rfl, le_refl _⟩

theorem dedupStep_key_entry {m : List Entry} (r : Entry) (hnd : (keys m).Nodup) :
    ∃ x ∈ dedupStep m r, x.1 = r.1 ∧ r.2 ≤ x.2 := by
  by_cases hk : r.1 ∈ keys m
  · have hx2 : ∃ v, (r.1, v) ∈ m := by simpa [keys] using hk
    rcases hx2 with ⟨v, hv⟩
    rcases replaceIfHigher_exists r m hv with ⟨x, hx, hx1, _⟩
    have hge : r.2 ≤ x.2 :=
      replaceIfHigher_ge m hnd hx (by simpa using hx1) hk
    exact ⟨x, by simpa [dedupStep, hk] using hx, by simpa using hx1, hge⟩
  · exact ⟨r, by simp [dedupStep, hk], rfl, le_refl _⟩

theorem eq_of_mem_same_key {p q : Entry} :
    ∀ m : List Entry, (keys m).Nodup → p ∈ m → q ∈ m → p.1 = q.1 → p = q := by
  intro m
  induction m with
  | nil => intro _ h; simp at h
  | cons e t ih =>
    intro hnd hp hq hpq
    rcases List.nodup_cons.mp (by simpa using hnd) with ⟨he, ht⟩
    rcases List.mem_cons.mp hp with hp1 | hp2
    · rcases List.mem_cons.mp hq with hq1 | hq2
      · rw [hp1, hq1]
      · exfalso
        apply he
        rw [← hp1, hpq]
        exact List.mem_map_of_mem Prod.fst hq2
    · rcases List.mem_cons.mp hq with hq1 | hq2
      · exfalso
        apply he
        rw [← hq1, ← hpq]
        exact List.mem_map_of_mem Prod.fst hp2
      · exact ih ht hp2 hq2 hpq

theorem foldl_dedupStep_nodup :
    ∀ (l : List Entry) (m : List Entry), (keys m).Nodup →
      (keys (l.foldl dedupStep m)).Nodup := by
  intro l
  induction l with
  | nil => intro m h; exact h
  | cons r t ih => intro m h; exact ih _ (nodup_keys_dedupStep r h)

theorem foldl_dedupStep_mono :
    ∀ (l : List Entry) (m : List Entry) (q : Entry), q ∈ m →
      ∃ x ∈ l.foldl dedupStep m, x.1 = q.1 ∧ q.2 ≤ x.2 := by
  intro l
  induction l with
  | nil => intro m q hq; exact ⟨q, hq, rfl, le_refl _⟩
  | cons r t ih =>
    intro m q hq
    rcases dedupStep_exists r hq with ⟨x, hx, hx1, hx2⟩
    rcases ih (dedupStep m r) x hx with ⟨y, hy, hy1, hy2⟩
    exact ⟨y, hy, hy1.trans hx1, hx2.trans hy2⟩

/-- The invariant of the deduplication loop: every entry of the accumulator
either survives from the start or carries a score that occurs in the processed
stream, and its score dominates every processed occurrence of its key. -/
theorem foldl_dedupStep_inv :
    ∀ (l : List Entry) (m : List Entry), (keys m).Nodup →
      ∀ p ∈ l.foldl dedupStep m,
        (p ∈ m ∨ p.2 ∈ occScores p.1 l) ∧ ∀ x ∈ occScores p.1 l, x ≤ p.2 := by
  intro l
  induction l with
  | nil =>
    intro m _ p hp
    exact ⟨Or.inl hp, by intro x hx; simp [occScores] at hx⟩
  | cons r t ih =>
    intro m hnd p hp
    have hnd2 : (keys (dedupStep m r)).Nodup := nodup_keys_dedupStep r hnd
    have hstep : (r :: t).foldl dedupStep m = t.foldl dedupStep (dedupStep m r) := rfl
    rw [hstep] at hp
    rcases ih (dedupStep m r) hnd2 p hp with ⟨hsrc, hdom⟩
    have hocc : ∀ a, occScores a (r :: t)
        = if r.1 = a then r.2 :: occScores a t else occScores a t := by
      intro a
      by_cases h : r.1 = a <;> simp [occScores, List.filter_cons, h]
    constructor
    · rcases hsrc with hp2 | hp2
      · rcases mem_dedupStep hp2 with hp3 | rfl
        · exact Or.inl hp3
        · right
          rw [hocc p.1]
          simp
      · right
        rw [hocc p.1]
        by_cases h : r.1 = p.1 <;> simp [h, hp2]
    · intro x hx
      rw [hocc p.1] at hx
      by_cases h : r.1 = p.1
      · rw [if_pos h] at hx
        rcases List.mem_cons.mp hx with rfl | hx2
        · rcases dedupStep_key_entry r hnd with ⟨e, he, he1, he2⟩
          rcases foldl_dedupStep_mono t (dedupStep m r) e he with ⟨y, hy, hy1, hy2⟩
          have hpy : p = y :=
            eq_of_mem_same_key _ (foldl_dedupStep_nodup t _ hnd2) hp hy
              (by rw [hy1, he1, h])
          exact le_trans he2 (le_trans hy2 (by rw [hpy]))
        · exact hdom x hx2
      · rw [if_neg h] at hx
        exact hdom x hx

/-- C8: for every list of per-query result lists, the reducer's output has
duplicate-free identifiers; each output entry's score is the maximum over all
occurrences of its identifier in the flattened results; the output is sorted
descending by score; and its length is at most the requested limit. -/
theorem search_k_reduce_spec (results : List (List Entry)) (limit : ℕ) :
    (keys (searchKReduce results limit)).Nodup
    ∧ (∀ p ∈ searchKReduce results limit,
        p.2 ∈ occScores p.1 results.flatten ∧ ∀ x ∈ occScores p.1 results.flatten, x ≤ p.2)
    ∧ (searchKReduce results limit).Pairwise (fun a b : Entry => b.2 ≤ a.2)
    ∧ (searchKReduce results limit).length ≤ limit := by
  have hnodup0 : (keys (dedupMax results)).Nodup := by
    rw [dedupMax_eq_join]
    exact foldl_dedupStep_nodup _ [] (by simp)
  refine ⟨?_, ?_, ?_, ?_⟩
  · have hperm : List.Perm (keys (sortDesc (dedupMax results))) (keys (dedupMax results)) :=
      (sortDesc_perm _).map Prod.fst
    exact List.Nodup.sublist ((List.take_sublist limit _).map Prod.fst)
      (hperm.nodup_iff.mpr hnodup0)
  · intro p hp
    have hp2 : p ∈ dedupMax results :=
      (sortDesc_perm _).mem_iff.mp (List.mem_of_mem_take hp)
    have hp3 : p ∈ results.flatten.foldl dedupStep [] := by rwa [dedupMax_eq_join] at hp2
    rcases foldl_dedupStep_inv results.flatten [] (by simp) p hp3 with ⟨hsrc, hdom⟩
    rcases hsrc with hfalse | hocc
    · simp at hfalse
    · exact ⟨hocc, hdom⟩
  · exact List.Pairwise.sublist (List.take_sublist limit _) (sortDesc_sorted _)
  · exact List.length_take_le limit _


theorem addVideos_nodup (limit : ℕ) :
    ∀ (l acc : List String), acc.Nodup → (addVideos limit acc l).Nodup := by
  intro l
  induction l with
  | nil => intro acc h; simpa [addVideos] using h
  | cons v rest ih =>
    intro acc h
    by_cases hv : v ∈ acc
    · by_cases hl : limit ≤ acc.length
      · simpa [addVideos, hv, hl] using h
      · simpa [addVideos, hv, hl] using ih acc h
    · have h2 : (acc ++ [v]).Nodup := by simpa [List.nodup_append] using ⟨h, hv⟩
      by_cases hl : limit ≤ acc.length + 1
      · simpa [addVideos, hv, hl] using h2
      · simpa [addVideos, hv, hl] using ih _ h2

theorem collectUsers_nodup (db : GraphDB) (limit : ℕ) :
    ∀ (users acc : List String), acc.Nodup → (collectUsers db limit acc users).Nodup := by
  intro users
  induction users with
  | nil => intro acc h; simpa [collectUsers] using h
  | cons u rest ih =>
    intro acc h
    have h2 : (addVideos limit acc (keys ((sortDesc (db.userVideos u)).take 20))).Nodup :=
      addVideos_nodup limit _ acc h
    by_cases hl : limit ≤
        (addVideos limit acc (keys ((sortDesc (db.userVideos u)).take 20))).length
    · simpa [collectUsers, hl] using h2
    · simpa [collectUsers, hl] using ih _ h2

/-- C9 (counterexample): the reader returns `["a", "b"]` although the only
recorded interaction weights are 1 for `"a"` and 5 for `"b"`: the output is
not ordered by interaction weight descending (the code never sorts the
collected set; it concatenates per-similar-user lists and deduplicates). -/
theorem graph_reader_order_counterexample :
    get_graph_recommendations exampleDB "u" 10 = ["a", "b"]
    ∧ lookupD "a" (exampleDB.userVideos "s1") = 1
    ∧ lookupD "b" (exampleDB.userVideos "s2") = 5
    ∧ ¬ ((5 : ℚ) ≤ 1) := by
  refine ⟨by decide, by decide, by decide, by norm_num⟩

/-- C9 (amended): for every database, user and limit, the reader returns a
list of neighbour identifiers with no duplicates and length at most `limit`,
and returns the empty list for a user with no recorded interactions; no
ordering of the result by interaction weight is guaranteed. -/
theorem graph_recommendations_props (db : GraphDB) (user : String) (limit : ℕ) :
    (get_graph_recommendations db user limit).Nodup
    ∧ (get_graph_recommendations db user limit).length ≤ limit
    ∧ (db.userVideos user = [] → get_graph_recommendations db user limit = []) := by
  refine ⟨?_, ?_, ?_⟩
  · exact List.Nodup.sublist (List.take_sublist limit _)
      (collectUsers_nodup db limit _ [] (by simp))
  · exact List.length_take_le limit _
  · intro h
    have h1 : userScores db user = [] := by
      simp only [userScores, h]
      rfl
    show (collectUsers db limit []
      (keys ((sortDesc (userScores db user)).take 5))).take limit = []
    rw [h1]
    show List.take limit ([] : List String) = []
    exact List.take_nil

/-- C10: the dispatcher raises `ValueError` exactly when the agent type is
neither `"research"` nor `"chat"`; `"research"` returns the research agent's
response (with the run id attached when a run tree exists) and `"chat"`
returns the chat agent's response; no other branch exists. -/
theorem route_request_spec (researchProcess chatProcess : Dict → Dict)
    (runTree : Option String) (agent_type : String) (input : Dict) :
    ((∃ msg, route_request researchProcess chatProcess runTree agent_type input
        = Except.error msg) ↔ (agent_type ≠ "research" ∧ agent_type ≠ "chat"))
    ∧ (agent_type = "research" →
        route_request researchProcess chatProcess runTree agent_type input
          = Except.ok (match runTree with
            | some rid => dictSet (researchProcess input) "run_id" rid
            | none => researchProcess input))
    ∧ (agent_type = "chat" →
        route_request researchProcess chatProcess runTree agent_type input
          = Except.ok (chatProcess input)) := by
  by_cases h1 : agent_type = "research"
  · subst h1
    refine ⟨by simp [route_request], fun _ => by simp [route_request], fun h => absurd h (by decide)⟩
  · by_cases h2 : agent_type = "chat"
    · subst h2
      refine ⟨by simp [route_request], fun h => absurd h (by decide), fun _ => by simp [route_request]⟩
    · refine ⟨?_, fun h => absurd h h1, fun h => absurd h h2⟩
      constructor
      · intro _
        exact ⟨h1, h2⟩
      · intro _
        exact ⟨"Unknown agent type: " ++ agent_type, by simp [route_request, h1, h2]⟩


end Thor
